import Mathlib

/-
Verification of the MITM continued-fraction search engine
(source/enumerate_over_gcf.py) against its specification.

The embedding models arbitrary-precision reals (mpmath mpf values) by exact
rationals, and Python arbitrary-precision integers by Int.  Python int() on a
real truncates toward zero; this is modelled by ratTrunc.
-/

section

attribute [local semireducible] Rat.add Rat.mul Rat.inv

/-- Global constant g_N_verify_terms = 1000 from the source. -/
def gNVerifyTerms : ℕ := 1000

/-- Global constant g_N_initial_search_terms = 32 from the source. -/
def gNInitialSearchTerms : ℕ := 32

/-- Python int() applied to a real value: truncation toward zero. -/
def ratTrunc (x : ℚ) : ℤ := if 0 ≤ x then ⌊x⌋ else -⌊-x⌋

/-- The key production used at every fingerprint site of the source:
int(value * key_factor). -/
def fingerprintKey (x : ℚ) (keyFactor : ℚ) : ℤ := ratTrunc (x * keyFactor)

/-- EnumerateOverGCF.__init__ sets self.threshold = 1e-10. -/
def thresholdDefault : ℚ := 1 / 10 ^ 10

/-- key_factor = 1 / threshold (with the default threshold this is 10^10,
so D = -log10(threshold) = 10 digits are kept). -/
def keyFactorDefault : ℚ := 1 / thresholdDefault

/-- The blacklist-site key computation:
int((mpmath.mpf(ratio[0]) / ratio[1]) * key_factor). -/
def rationalKey (keyFactor : ℚ) (p q : ℤ) : ℤ :=
  fingerprintKey ((p : ℚ) / (q : ℚ)) keyFactor

/-- Match = namedtuple('Match', 'lhs_key rhs_an_poly rhs_bn_poly'). -/
structure Match where
  lhsKey : ℤ
  rhsAnPoly : List ℤ
  rhsBnPoly : List ℤ
deriving DecidableEq, Repr

/-- One iteration of the loop body of efficient_gcf_calculation.  State is
(prev_p, p, prev_q, q); iteration index i runs over range(1, len(a_)). -/
def gcfStep (a b : List ℤ) (st : ℤ × ℤ × ℤ × ℤ) (i : ℕ) : ℤ × ℤ × ℤ × ℤ :=
  (st.2.1, a.getD i 0 * st.2.1 + b.getD (i - 1) 0 * st.1,
   st.2.2.2, a.getD i 0 * st.2.2.2 + b.getD (i - 1) 0 * st.2.2.1)

/-- The loop of efficient_gcf_calculation: prev_q = 0, q = 1, prev_p = 1,
p = a_[0], then the three-term updates for i in range(1, len(a_)). -/
def gcfLoop (a b : List ℤ) : ℤ × ℤ × ℤ × ℤ :=
  (List.range' 1 (a.length - 1)).foldl (gcfStep a b) (1, a.headD 0, 0, 1)

/-- efficient_gcf_calculation: value = p/q (or 0 if q == 0), then
int(value * key_factor). -/
def efficientGcfKey (a b : List ℤ) (keyFactor : ℚ) : ℤ :=
  ratTrunc ((if (gcfLoop a b).2.2.2 = 0 then (0 : ℚ)
    else ((gcfLoop a b).2.1 : ℚ) / ((gcfLoop a b).2.2.2 : ℚ)) * keyFactor)

/-- The classical convergent recurrence exactly as the spec words it
(p_0 = a_0, q_0 = 1, p_-1 = 1, q_-1 = 0, and for n = 1..L:
p_n = a_n p_(n-1) + b_(n-1) p_(n-2), q_n = a_n q_(n-1) + b_(n-1) q_(n-2)).
The value at n is the state (p_(n-1), p_n, q_(n-1), q_n). -/
def classicalConv (a b : List ℤ) : ℕ → ℤ × ℤ × ℤ × ℤ
  | 0 => (1, a.headD 0, 0, 1)
  | n + 1 =>
    let st := classicalConv a b n
    (st.2.1, a.getD (n + 1) 0 * st.2.1 + b.getD n 0 * st.1,
     st.2.2.2, a.getD (n + 1) 0 * st.2.2.2 + b.getD n 0 * st.2.2.1)

/-- Numerator and denominator sums of LHSHashTable.__init__:
sum(i * j for (i, j) in zip(coefs, constants)) with constants = [mpf(1)] + const_vals. -/
def affineVal (coefs : List ℤ) (constVals : List ℚ) : ℚ :=
  ((coefs.zip ((1 : ℚ) :: constVals)).map (fun p => (p.1 : ℚ) * p.2)).sum

/-- LHSHashTable.prod: ret = coefs[0], then ret += consts[i] * coefs[i+1]
for i in range(len(consts)). -/
def lhsProd (coefs : List ℤ) (constVals : List ℚ) : ℚ :=
  ((coefs.headD 0 : ℤ) : ℚ) +
    ((constVals.zip (coefs.drop 1)).map (fun p => p.1 * (p.2 : ℚ))).sum

/-- functools.reduce(math.gcd, xs): math.gcd returns the nonnegative gcd of
the absolute values; the seed is the first list element. -/
def pyGcdReduce : List ℤ → ℤ
  | [] => 0
  | x :: xs => xs.foldl (fun g y => (Int.gcd g y : ℤ)) x

/-- Python list(range(-R, R + 1)). -/
def rangeList (R : ℕ) : List ℤ :=
  (List.range (2 * R + 1)).map (fun i => (i : ℤ) - R)

/-- coef_possibilities: range(-R, R + 1) with the single 0 removed. -/
def nonzeroRange (R : ℕ) : List ℤ := (rangeList R).filter (fun x => x != 0)

/-- itertools.product over a list of factor lists (the rightmost factor
varies fastest). -/
def listProd : List (List ℤ) → List (List ℤ)
  | [] => [[]]
  | xs :: rest => xs.flatMap (fun x => (listProd rest).map (fun v => x :: v))

/-- rational_keys = [int((mpf(p) / q) * key_factor) for (p, q) in
itertools.product(coef_possibilities, coef_possibilities)]. -/
def rationalKeys (R : ℕ) (keyFactor : ℚ) : List ℤ :=
  (nonzeroRange R).flatMap (fun p =>
    (nonzeroRange R).map (fun q => rationalKey keyFactor p q))

/-- rational_blacklist = set(rational_keys + [x + 1 for ...] + [x - 1 for ...]);
modelled as a list, used only through membership. -/
def rationalBlacklist (R : ℕ) (keyFactor : ℚ) : List ℤ :=
  rationalKeys R keyFactor ++ (rationalKeys R keyFactor).map (· + 1) ++
    (rationalKeys R keyFactor).map (· - 1)

/-- A stored LHS entry: the pair (c_top, c_bottom). -/
abbrev LhsEntry := List ℤ × List ℤ

/-- Python dict assignment self.s[key] = entry: overwrite in place when the
key is present (keeping its position), otherwise append at the end. -/
def insertEntry (s : List (ℤ × LhsEntry)) (k : ℤ) (e : LhsEntry) :
    List (ℤ × LhsEntry) :=
  if s.any (fun p => p.1 == k) then
    s.map (fun p => if p.1 == k then (k, e) else p)
  else s ++ [(k, e)]

/-- Inner-loop body of LHSHashTable.__init__ for one (c_top, c_bottom) pair:
the gcd-not-1 skip, the zero-denominator skip, the key computation, the
blacklist skip, then the store. -/
def processPair (constVals : List ℚ) (keyFactor : ℚ) (bl : List ℤ)
    (cTop cBot : List ℤ) (s : List (ℤ × LhsEntry)) : List (ℤ × LhsEntry) :=
  if pyGcdReduce (cTop ++ cBot) ≠ 1 then s
  else if affineVal cBot constVals = 0 then s
  else if fingerprintKey
      (affineVal cTop constVals / affineVal cBot constVals) keyFactor ∈ bl then s
  else insertEntry s
    (fingerprintKey (affineVal cTop constVals / affineVal cBot constVals) keyFactor)
    (cTop, cBot)

/-- Outer-loop body of LHSHashTable.__init__ for one c_top: skip the whole
inner loop unless the numerator is positive, otherwise fold the inner loop
over all c_bottom (the source precomputes the denominator list and zips; the
resulting store is the same). -/
def processTop (constVals : List ℚ) (keyFactor : ℚ) (bl : List ℤ)
    (bottoms : List (List ℤ)) (cTop : List ℤ) (s : List (ℤ × LhsEntry)) :
    List (ℤ × LhsEntry) :=
  if affineVal cTop constVals ≤ 0 then s
  else bottoms.foldl
    (fun s2 cBot => processPair constVals keyFactor bl cTop cBot s2) s

/-- Coefficient vector space of LHSHashTable.__init__: the product of
len(constants) copies of range(-R, R+1); numerators and denominators range
over the same space. -/
def lhsCoefVecs (searchRange : ℕ) (constVals : List ℚ) : List (List ℤ) :=
  listProd (List.replicate ((1 : ℚ) :: constVals).length (rangeList searchRange))

/-- The mapping self.s built by LHSHashTable.__init__, with
key_factor = 1 / threshold. -/
def lhsTableEntries (searchRange : ℕ) (constVals : List ℚ) (threshold : ℚ) :
    List (ℤ × LhsEntry) :=
  (lhsCoefVecs searchRange constVals).foldl
    (fun s cTop => processTop constVals (1 / threshold)
      (rationalBlacklist searchRange (1 / threshold))
      (lhsCoefVecs searchRange constVals) cTop s) []

/-- LHSHashTable state: the comparison threshold and the mapping self.s. -/
structure LHSHashTable where
  threshold : ℚ
  s : List (ℤ × LhsEntry)
deriving DecidableEq, Repr

/-- LHSHashTable.__init__(search_range, const_vals, threshold). -/
def buildLHSHashTable (searchRange : ℕ) (constVals : List ℚ) (threshold : ℚ) :
    LHSHashTable :=
  ⟨threshold, lhsTableEntries searchRange constVals threshold⟩

/-- self.s.keys(). -/
def LHSHashTable.keys (t : LHSHashTable) : List ℤ := t.s.map Prod.fst

/-- LHSHashTable.__contains__. -/
def LHSHashTable.containsKey (t : LHSHashTable) (k : ℤ) : Bool :=
  t.s.any (fun p => p.1 == k)

/-- LHSHashTable.__getitem__; Python raises KeyError on a missing key, so the
lookup is an Option. -/
def LHSHashTable.lookup (t : LHSHashTable) (k : ℤ) : Option LhsEntry :=
  (t.s.find? (fun p => p.1 == k)).map Prod.snd

/-- LHSHashTable.__eq__: thresholds compare equal and sorted key lists
compare equal (an LHSHashTable only ever compares False against a value of
another type, which a typed embedding cannot express). -/
def tableEq (t1 t2 : LHSHashTable) : Bool :=
  (t1.threshold == t2.threshold) && (t1.keys.mergeSort == t2.keys.mergeSort)

/-- Provenance of an entry of the built table: it was stored by the guarded
body of the double loop. -/
def EntryProv (constVals : List ℚ) (keyFactor : ℚ) (bl : List ℤ)
    (vecs : List (List ℤ)) (x : ℤ × LhsEntry) : Prop :=
  ∃ cTop cBot,
    x = (fingerprintKey
          (affineVal cTop constVals / affineVal cBot constVals) keyFactor,
         (cTop, cBot)) ∧
    cTop ∈ vecs ∧ cBot ∈ vecs ∧
    0 < affineVal cTop constVals ∧
    pyGcdReduce (cTop ++ cBot) = 1 ∧
    affineVal cBot constVals ≠ 0 ∧
    fingerprintKey (affineVal cTop constVals / affineVal cBot constVals)
      keyFactor ∉ bl

/-- itertools.compress(data, selectors). -/
def compress {α : Type} (xs : List α) (sel : List Bool) : List α :=
  (xs.zip sel).filterMap (fun p => if p.2 then some p.1 else none)

/-- EnumerateOverGCF.__create_series_list: materialize every series for the
given coefficient iterator, drop the ones containing a forbidden 0 (all
positions, or all positions from index 1 when filter_from_1), and return the
filtered (coef_list, series_list). -/
def createSeriesList (coefIter : List (List ℤ)) (gen : List ℤ → ℕ → List ℤ)
    (filterFrom1 : Bool) : List (List ℤ) × List (List ℤ) :=
  (compress coefIter ((coefIter.map (fun c => gen c gNInitialSearchTerms)).map
      (fun s => if filterFrom1 then !((s.drop 1).contains 0) else !(s.contains 0))),
   compress (coefIter.map (fun c => gen c gNInitialSearchTerms))
     ((coefIter.map (fun c => gen c gNInitialSearchTerms)).map
      (fun s => if filterFrom1 then !((s.drop 1).contains 0) else !(s.contains 0))))

/-- The size_a > size_b branch of __first_enumeration: cache the filtered
{bn} series in RAM and stream the a coefficients; a_0 may be 0 but no later
a term may; a Match carries (key, a_coef, b_coef). -/
def enumCacheB (tbl : LHSHashTable) (genA genB : List ℤ → ℕ → List ℤ)
    (aIter bIter : List (List ℤ)) : List Match :=
  aIter.flatMap (fun aCoef =>
    if ((genA aCoef 32).drop 1).contains 0 then []
    else ((createSeriesList bIter genB false).2.zip
        (createSeriesList bIter genB false).1).filterMap (fun bnc =>
      if tbl.containsKey (efficientGcfKey (genA aCoef 32) bnc.1 keyFactorDefault)
      then some ⟨efficientGcfKey (genA aCoef 32) bnc.1 keyFactorDefault, aCoef, bnc.2⟩
      else none))

/-- The other branch of __first_enumeration: cache the filtered {an} series
(filter_from_1 = True) and stream the b coefficients; a streamed {bn} must be
entirely nonzero. -/
def enumCacheA (tbl : LHSHashTable) (genA genB : List ℤ → ℕ → List ℤ)
    (aIter bIter : List (List ℤ)) : List Match :=
  bIter.flatMap (fun bCoef =>
    if (genB bCoef 32).contains 0 then []
    else ((createSeriesList aIter genA true).2.zip
        (createSeriesList aIter genA true).1).filterMap (fun anc =>
      if tbl.containsKey (efficientGcfKey anc.1 (genB bCoef 32) keyFactorDefault)
      then some ⟨efficientGcfKey anc.1 (genB bCoef 32) keyFactorDefault, anc.2, bCoef⟩
      else none))

/-- Modelled from the spec: the CartesianProduct series generators (module
series_generators, not under src/) expose count(spec), the product of the
coefficient range lengths, matching the iterator listProd. -/
def cartesianCount (poly : List (List ℤ)) : ℕ := (poly.map List.length).prod

/-- EnumerateOverGCF.__first_enumeration with the Cartesian iterators:
compare the two domain sizes and run the corresponding caching branch. -/
def firstEnumeration (tbl : LHSHashTable) (genA genB : List ℤ → ℕ → List ℤ)
    (polyA polyB : List (List ℤ)) : List Match :=
  if cartesianCount polyA > cartesianCount polyB then
    enumCacheB tbl genA genB (listProd polyA) (listProd polyB)
  else
    enumCacheA tbl genA genB (listProd polyA) (listProd polyB)

/-- Modelled from the spec: the compact polynomial form
n(n(..(n c_k + c_(k-1))..) + c_1) + c_0, evaluated by Horner's rule. -/
def hornerEval (coeffs : List ℤ) (x : ℤ) : ℤ :=
  coeffs.foldr (fun c acc => c + x * acc) 0

/-- Modelled from the spec: create_series_from_compact_poly (module
series_generators, not under src/) evaluates the compact integer polynomial
at n = 1..N. -/
def createSeriesFromCompactPoly (coeffs : List ℤ) (n : ℕ) : List ℤ :=
  (List.range n).map (fun i => hornerEval coeffs ((i : ℤ) + 1))

/-- Modelled from the spec: mobius.EfficientGCF (not under src/) runs the
same three-term recurrence and returns the convergent p/q; the division
raises when q = 0, hence the Option. -/
def efficientGcfEvaluate (a b : List ℤ) : Option ℚ :=
  if (gcfLoop a b).2.2.2 = 0 then none
  else some (((gcfLoop a b).2.1 : ℚ) / ((gcfLoop a b).2.2.2 : ℚ))

/-- EnumerateOverGCF.__refine_results.  constVals are the constant values at
the verification precision, and fmt stands for mpmath.nstr(value, 100), the
rendering of a value to its first 100 significant decimal digits.  A missing
key (KeyError) or a failed RHS evaluation propagates as none (an uncaught
exception); a zero LHS denominator (ZeroDivisionError, and the inf/nan
check) silently skips the match. -/
def refineResults (tbl : LHSHashTable) (constVals : List ℚ) (fmt : ℚ → String)
    (genA genB : List ℤ → ℕ → List ℤ) : List Match → Option (List Match)
  | [] => some []
  | r :: rest =>
    match tbl.lookup r.lhsKey with
    | none => none
    | some (cTop, cBot) =>
      if lhsProd cBot constVals = 0 then
        refineResults tbl constVals fmt genA genB rest
      else
        match efficientGcfEvaluate (genA r.rhsAnPoly gNVerifyTerms)
            (genB r.rhsBnPoly gNVerifyTerms) with
        | none => none
        | some rhs =>
          if fmt (lhsProd cTop constVals / lhsProd cBot constVals) = fmt rhs then
            (refineResults tbl constVals fmt genA genB rest).map (fun l => r :: l)
          else refineResults tbl constVals fmt genA genB rest

/-- The per-match acceptance test of __refine_results: the LHS evaluates
finitely and the two 100-digit decimal strings agree. -/
def refineAccept (tbl : LHSHashTable) (constVals : List ℚ) (fmt : ℚ → String)
    (genA genB : List ℤ → ℕ → List ℤ) (r : Match) : Bool :=
  match tbl.lookup r.lhsKey with
  | none => false
  | some (cTop, cBot) =>
    if lhsProd cBot constVals = 0 then false
    else
      match efficientGcfEvaluate (genA r.rhsAnPoly gNVerifyTerms)
          (genB r.rhsBnPoly gNVerifyTerms) with
      | none => false
      | some rhs =>
        fmt (lhsProd cTop constVals / lhsProd cBot constVals) == fmt rhs

/-- The conditions under which __refine_results raises no uncaught exception
on a match: its key is present in the table and its 1000-term convergent has
a nonzero denominator. -/
def RefineOK (tbl : LHSHashTable) (genA genB : List ℤ → ℕ → List ℤ)
    (r : Match) : Prop :=
  (tbl.lookup r.lhsKey).isSome = true ∧
  (efficientGcfEvaluate (genA r.rhsAnPoly gNVerifyTerms)
    (genB r.rhsBnPoly gNVerifyTerms)).isSome = true

/-- Order-canonical form of the first enumeration: one guarded item per
(a_coef, b_coef) pair of the product domain, in a-major order. -/
def canonicalMatches (tbl : LHSHashTable) (genA genB : List ℤ → ℕ → List ℤ)
    (aIter bIter : List (List ℤ)) : List Match :=
  aIter.flatMap (fun aCoef =>
    bIter.flatMap (fun bCoef =>
      if ((genA aCoef 32).drop 1).contains 0 then []
      else if (genB bCoef 32).contains 0 then []
      else if tbl.containsKey
          (efficientGcfKey (genA aCoef 32) (genB bCoef 32) keyFactorDefault)
      then [⟨efficientGcfKey (genA aCoef 32) (genB bCoef 32) keyFactorDefault,
            aCoef, bCoef⟩]
      else []))

/-- The fields of a Match emitted over the product domain aIter x bIter. -/
def MatchSpec (tbl : LHSHashTable) (genA genB : List ℤ → ℕ → List ℤ)
    (aIter bIter : List (List ℤ)) (m : Match) : Prop :=
  m.rhsAnPoly ∈ aIter ∧ m.rhsBnPoly ∈ bIter ∧
  ((genA m.rhsAnPoly 32).drop 1).contains 0 = false ∧
  (genB m.rhsBnPoly 32).contains 0 = false ∧
  m.lhsKey = efficientGcfKey (genA m.rhsAnPoly 32) (genB m.rhsBnPoly 32)
    keyFactorDefault ∧
  tbl.containsKey m.lhsKey = true

/-- Python slice poly_a[s][i*t : (i+1)*t], or poly_a[s][i*t :] for the last
worker (index == num_cores - 1). -/
def slabList {α : Type} (xs : List α) (t : ℕ) (W i : ℕ) : List α :=
  if i = W - 1 then xs.drop (i * t) else (xs.drop (i * t)).take t

/-- The in-place mutation loop at the top of multi_core_enumeration:
for s in range(len(splits_size)): poly_a[s] = the worker's slice. -/
def multiCoreSlicePolyA (polyA : List (List ℤ)) (T : List ℕ) (W i : ℕ) :
    List (List ℤ) :=
  (List.range T.length).foldl
    (fun pa s => pa.set s (slabList (pa.getD s []) (T.getD s 0) W i)) polyA

/-- EnumerateOverGCF.find_hits: first enumeration then refinement. -/
def findHits (tbl : LHSHashTable) (constVals : List ℚ) (fmt : ℚ → String)
    (genA genB : List ℤ → ℕ → List ℤ) (polyA polyB : List (List ℤ)) :
    Option (List Match) :=
  refineResults tbl constVals fmt genA genB
    (firstEnumeration tbl genA genB polyA polyB)

/-- multi_core_enumeration for worker index i: slice poly_a, then run
find_hits on the sliced domain (every worker loads the same hash table). -/
def multiCoreEnumeration (tbl : LHSHashTable) (constVals : List ℚ)
    (fmt : ℚ → String) (genA genB : List ℤ → ℕ → List ℤ)
    (polyA polyB : List (List ℤ)) (W : ℕ) (T : List ℕ) (i : ℕ) :
    Option (List Match) :=
  findHits tbl constVals fmt genA genB (multiCoreSlicePolyA polyA T W i) polyB

/- ------------------------------------------------------------------ -/
/- Theorems -/
/- ------------------------------------------------------------------ -/

theorem gcfLoop_eq_classicalConv (a b : List ℤ) :
    gcfLoop a b = classicalConv a b (a.length - 1) := by
  suffices h : ∀ n, (List.range' 1 n).foldl (gcfStep a b) (1, a.headD 0, 0, 1) =
      classicalConv a b n from h (a.length - 1)
  intro n
  induction n with
  | zero => rfl
  | succ n ih =>
    rw [List.range'_concat, List.foldl_append, ih]
    simp only [List.foldl_cons, List.foldl_nil, classicalConv, gcfStep]
    have h1 : 1 + 1 * n = n + 1 := by omega
    rw [h1]
    simp only [Nat.add_sub_cancel]

/-- C2: for integer sequences a (length L+1) and b (length L) with q_L nonzero,
the key computed by efficient_gcf_calculation equals the fingerprint key of the
classical Lth convergent p_L / q_L, with p, q computed in exact integer
arithmetic. -/
theorem gcf_key_eq_classical_convergent_key (a b : List ℤ) (kf : ℚ) (L : ℕ)
    (hA : a.length = L + 1) (hB : b.length = L)
    (hq : (classicalConv a b L).2.2.2 ≠ 0) :
    efficientGcfKey a b kf =
      fingerprintKey (((classicalConv a b L).2.1 : ℚ) /
        ((classicalConv a b L).2.2.2 : ℚ)) kf := by
  have hL : a.length - 1 = L := by omega
  unfold efficientGcfKey fingerprintKey
  rw [gcfLoop_eq_classicalConv, hL]
  rw [if_neg hq]

/-- Witness for C2 at a = [1, 1], b = [1], L = 1. -/
theorem gcf_key_eq_classical_convergent_key_witness :
    List.length [(1 : ℤ), 1] = 1 + 1 ∧ List.length [(1 : ℤ)] = 1 ∧
    (classicalConv [1, 1] [1] 1).2.2.2 ≠ 0 ∧
    efficientGcfKey [1, 1] [1] keyFactorDefault =
      fingerprintKey (((classicalConv [1, 1] [1] 1).2.1 : ℚ) /
        ((classicalConv [1, 1] [1] 1).2.2.2 : ℚ)) keyFactorDefault :=
  ⟨by decide, by decide, by decide,
    gcf_key_eq_classical_convergent_key [1, 1] [1] keyFactorDefault 1
      (by decide) (by decide) (by decide)⟩

/-- C8: whenever the recurrence ends with q = 0, efficient_gcf_calculation
returns the sentinel key 0 (and, being a total function in this model, raises
no division error: the q == 0 safety check precedes the division). -/
theorem gcf_key_zero_denominator (a b : List ℤ) (kf : ℚ)
    (hq : (gcfLoop a b).2.2.2 = 0) : efficientGcfKey a b kf = 0 := by
  unfold efficientGcfKey
  rw [if_pos hq, zero_mul]
  simp [ratTrunc]

/-- Witness for C8 at a = [0, 0], b = [1], where q_1 = 0. -/
theorem gcf_key_zero_denominator_witness :
    (gcfLoop [0, 0] [1]).2.2.2 = 0 ∧
    efficientGcfKey [0, 0] [1] keyFactorDefault = 0 :=
  ⟨by decide, gcf_key_zero_denominator [0, 0] [1] keyFactorDefault (by decide)⟩

/-- C3 counterexample: the blacklist entry for the fingerprinted rational
value -1/3 (searchable whenever R is at least 3) is computed with Python
int(), which truncates toward zero, so it differs from the mathematical floor
required by the claim. -/
theorem fingerprint_key_not_floor_counterexample :
    rationalKey keyFactorDefault (-1) 3 ≠
      ⌊((-1 : ℚ) / 3) * keyFactorDefault⌋ := by decide

/-- C3 amended: every fingerprint key is int(x * 10^D), the truncation toward
zero: it agrees with the floor for nonnegative x and is the ceiling for
negative x. -/
theorem fingerprint_key_is_truncation (x : ℚ) :
    (0 ≤ x → fingerprintKey x keyFactorDefault = ⌊x * keyFactorDefault⌋) ∧
    (x < 0 → fingerprintKey x keyFactorDefault = ⌈x * keyFactorDefault⌉) := by
  have hkf : (0 : ℚ) < keyFactorDefault := by
    norm_num [keyFactorDefault, thresholdDefault]
  constructor
  · intro hx
    have h : 0 ≤ x * keyFactorDefault := mul_nonneg hx hkf.le
    simp [fingerprintKey, ratTrunc, h]
  · intro hx
    have h : x * keyFactorDefault < 0 := mul_neg_of_neg_of_pos hx hkf
    have h2 : ¬ (0 ≤ x * keyFactorDefault) := not_le.mpr h
    simp only [fingerprintKey, ratTrunc, h2, if_false, Int.floor_neg, neg_neg]

theorem mem_insertEntry {s : List (ℤ × LhsEntry)} {k : ℤ} {e : LhsEntry}
    {x : ℤ × LhsEntry} (h : x ∈ insertEntry s k e) : x ∈ s ∨ x = (k, e) := by
  unfold insertEntry at h
  split at h
  · rcases List.mem_map.mp h with ⟨y, hy, hxy⟩
    split at hxy
    · right; exact hxy.symm
    · left; rw [← hxy]; exact hy
  · rcases List.mem_append.mp h with h1 | h1
    · left; exact h1
    · right; simpa using h1

theorem mem_processPair {cv : List ℚ} {kf : ℚ} {bl : List ℤ}
    {cTop cBot : List ℤ} {s : List (ℤ × LhsEntry)} {x : ℤ × LhsEntry}
    (h : x ∈ processPair cv kf bl cTop cBot s) :
    x ∈ s ∨ (pyGcdReduce (cTop ++ cBot) = 1 ∧ affineVal cBot cv ≠ 0 ∧
      fingerprintKey (affineVal cTop cv / affineVal cBot cv) kf ∉ bl ∧
      x = (fingerprintKey (affineVal cTop cv / affineVal cBot cv) kf,
        (cTop, cBot))) := by
  unfold processPair at h
  split at h
  · exact Or.inl h
  · next hgcd =>
    split at h
    · exact Or.inl h
    · next hden =>
      split at h
      · exact Or.inl h
      · next hbl =>
        rcases mem_insertEntry h with h1 | h1
        · exact Or.inl h1
        · exact Or.inr ⟨not_not.mp hgcd, hden, hbl, h1⟩

theorem foldl_mem_or {α : Type} (step : List (ℤ × LhsEntry) → α → List (ℤ × LhsEntry))
    (P : ℤ × LhsEntry → Prop) :
    ∀ (l : List α), (∀ s a, a ∈ l → ∀ x ∈ step s a, x ∈ s ∨ P x) →
      ∀ init x, x ∈ l.foldl step init → x ∈ init ∨ P x := by
  intro l
  induction l with
  | nil => intro _ init x h; exact Or.inl h
  | cons a l ih =>
    intro hstep init x h
    rw [List.foldl_cons] at h
    rcases ih (fun s a2 ha2 => hstep s a2 (List.mem_cons_of_mem _ ha2))
        (step init a) x h with h1 | h1
    · exact hstep init a (List.mem_cons_self _ _) x h1
    · exact Or.inr h1

theorem mem_processTop {cv : List ℚ} {kf : ℚ} {bl : List ℤ}
    {bottoms : List (List ℤ)} {cTop : List ℤ} {s : List (ℤ × LhsEntry)}
    {x : ℤ × LhsEntry} (h : x ∈ processTop cv kf bl bottoms cTop s) :
    x ∈ s ∨ (0 < affineVal cTop cv ∧ ∃ cBot ∈ bottoms,
      pyGcdReduce (cTop ++ cBot) = 1 ∧ affineVal cBot cv ≠ 0 ∧
      fingerprintKey (affineVal cTop cv / affineVal cBot cv) kf ∉ bl ∧
      x = (fingerprintKey (affineVal cTop cv / affineVal cBot cv) kf,
        (cTop, cBot))) := by
  unfold processTop at h
  split at h
  · exact Or.inl h
  · next hpos =>
    have hstep : ∀ s2 cBot, cBot ∈ bottoms →
        ∀ y ∈ processPair cv kf bl cTop cBot s2, y ∈ s2 ∨
          (0 < affineVal cTop cv ∧ ∃ cb ∈ bottoms,
            pyGcdReduce (cTop ++ cb) = 1 ∧ affineVal cb cv ≠ 0 ∧
            fingerprintKey (affineVal cTop cv / affineVal cb cv) kf ∉ bl ∧
            y = (fingerprintKey (affineVal cTop cv / affineVal cb cv) kf,
              (cTop, cb))) := by
      intro s2 cBot hcb y hy
      rcases mem_processPair hy with h1 | h1
      · exact Or.inl h1
      · exact Or.inr ⟨not_le.mp hpos, cBot, hcb, h1⟩
    exact foldl_mem_or _ _ bottoms hstep s x h

theorem mem_lhsTableEntries {R : ℕ} {cv : List ℚ} {τ : ℚ} {x : ℤ × LhsEntry}
    (h : x ∈ lhsTableEntries R cv τ) :
    EntryProv cv (1 / τ) (rationalBlacklist R (1 / τ)) (lhsCoefVecs R cv) x := by
  unfold lhsTableEntries at h
  have hstep : ∀ s cTop, cTop ∈ lhsCoefVecs R cv →
      ∀ y ∈ processTop cv (1 / τ) (rationalBlacklist R (1 / τ))
        (lhsCoefVecs R cv) cTop s, y ∈ s ∨
        EntryProv cv (1 / τ) (rationalBlacklist R (1 / τ)) (lhsCoefVecs R cv) y := by
    intro s cTop hct y hy
    rcases mem_processTop hy with h1 | h1
    · exact Or.inl h1
    · rcases h1 with ⟨hpos, cBot, hcb, hgcd, hden, hbl, hy2⟩
      exact Or.inr ⟨cTop, cBot, hy2, hct, hcb, hpos, hgcd, hden, hbl⟩
  rcases foldl_mem_or _ _ (lhsCoefVecs R cv) hstep [] x h with h1 | h1
  · exact absurd h1 (List.not_mem_nil x)
  · exact h1

/-- C4: every entry stored by LHSHashTable.__init__ satisfies the four
canonicalization invariants: positive numerator, coprime concatenated
coefficients, nonzero denominator, and a stored key (which is the entry's
own fingerprint key) outside the rational blacklist. -/
theorem lhs_hash_entry_invariants (R : ℕ) (cv : List ℚ) (τ : ℚ) (k : ℤ)
    (top bot : List ℤ) (h : (k, (top, bot)) ∈ (buildLHSHashTable R cv τ).s) :
    0 < affineVal top cv ∧ pyGcdReduce (top ++ bot) = 1 ∧
    affineVal bot cv ≠ 0 ∧
    k = fingerprintKey (affineVal top cv / affineVal bot cv) (1 / τ) ∧
    k ∉ rationalBlacklist R (1 / τ) := by
  have h2 : (k, (top, bot)) ∈ lhsTableEntries R cv τ := h
  rcases mem_lhsTableEntries h2 with ⟨cTop, cBot, hx, _, _, hpos, hgcd, hden, hbl⟩
  rw [Prod.mk.injEq, Prod.mk.injEq] at hx
  obtain ⟨hk, htop2, hbot2⟩ := hx
  subst htop2; subst hbot2; subst hk
  exact ⟨hpos, hgcd, hden, rfl, hbl⟩

theorem affineVal_tail_zeros (c0 : ℤ) (rest : List ℤ) (cv : List ℚ)
    (h : ∀ c ∈ rest, c = 0) : affineVal (c0 :: rest) cv = (c0 : ℚ) := by
  unfold affineVal
  rw [List.zip_cons_cons, List.map_cons, List.sum_cons]
  have hz : ((rest.zip cv).map (fun p => (p.1 : ℚ) * p.2)).sum = 0 := by
    apply List.sum_eq_zero
    intro q hq
    rcases List.mem_map.mp hq with ⟨p, hp, rfl⟩
    have hp1 : p.1 = 0 := h p.1 (List.of_mem_zip hp).1
    rw [hp1]
    simp
  rw [hz]
  simp

theorem mem_listProd_replicate : ∀ {n : ℕ} {xs : List ℤ} {v : List ℤ},
    v ∈ listProd (List.replicate n xs) → v.length = n ∧ ∀ c ∈ v, c ∈ xs := by
  intro n
  induction n with
  | zero =>
    intro xs v h
    simp only [List.replicate, listProd, List.mem_singleton] at h
    subst h
    simp
  | succ n ih =>
    intro xs v h
    rw [List.replicate_succ] at h
    simp only [listProd] at h
    rcases List.mem_flatMap.mp h with ⟨x, hx, hv⟩
    rcases List.mem_map.mp hv with ⟨w, hw, rfl⟩
    obtain ⟨hl, hm⟩ := ih hw
    refine ⟨by simp [hl], fun c hc => ?_⟩
    rcases List.mem_cons.mp hc with rfl | hc
    · exact hx
    · exact hm c hc

theorem mem_nonzeroRange {R : ℕ} {c : ℤ} (h1 : c ∈ rangeList R) (h2 : c ≠ 0) :
    c ∈ nonzeroRange R := by
  unfold nonzeroRange
  rw [List.mem_filter]
  exact ⟨h1, by simpa [bne_iff_ne] using h2⟩

theorem mem_rationalKeys {R : ℕ} {kf : ℚ} {p q : ℤ}
    (hp : p ∈ nonzeroRange R) (hq : q ∈ nonzeroRange R) :
    rationalKey kf p q ∈ rationalKeys R kf := by
  unfold rationalKeys
  exact List.mem_flatMap.mpr ⟨p, hp, List.mem_map.mpr ⟨q, hq, rfl⟩⟩

theorem rationalKeys_subset_blacklist {R : ℕ} {kf : ℚ} {k : ℤ}
    (h : k ∈ rationalKeys R kf) : k ∈ rationalBlacklist R kf := by
  unfold rationalBlacklist
  exact List.mem_append.mpr (Or.inl (List.mem_append.mpr (Or.inl h)))

/-- C5: a pair of coefficient vectors whose constant coefficients are all
zero (a rational-only combination) is never stored: the blacklist purge is
sound. -/
theorem rational_only_pair_not_stored (R : ℕ) (cv : List ℚ) (τ : ℚ) (k : ℤ)
    (top bot : List ℤ) (htop : ∀ c ∈ top.drop 1, c = 0)
    (hbot : ∀ c ∈ bot.drop 1, c = 0) :
    (k, (top, bot)) ∉ (buildLHSHashTable R cv τ).s := by
  intro h
  have h2 : (k, (top, bot)) ∈ lhsTableEntries R cv τ := h
  rcases mem_lhsTableEntries h2 with ⟨cTop, cBot, hx, hct, hcb, hpos, hgcd, hden, hbl⟩
  rw [Prod.mk.injEq, Prod.mk.injEq] at hx
  obtain ⟨hk, htop2, hbot2⟩ := hx
  subst htop2; subst hbot2; subst hk
  obtain ⟨hlen_t, hmem_t⟩ := mem_listProd_replicate hct
  obtain ⟨hlen_b, hmem_b⟩ := mem_listProd_replicate hcb
  cases top with
  | nil => simp at hlen_t
  | cons t0 rtop =>
    cases bot with
    | nil => simp at hlen_b
    | cons b0 rbot =>
      have hvt : affineVal (t0 :: rtop) cv = (t0 : ℚ) :=
        affineVal_tail_zeros t0 rtop cv (by simpa using htop)
      have hvb : affineVal (b0 :: rbot) cv = (b0 : ℚ) :=
        affineVal_tail_zeros b0 rbot cv (by simpa using hbot)
      have ht0pos : 0 < t0 := by
        rw [hvt] at hpos
        exact_mod_cast hpos
      have hb0ne : b0 ≠ 0 := by
        intro h0
        apply hden
        rw [hvb, h0]
        simp
      apply hbl
      have hkey : fingerprintKey (affineVal (t0 :: rtop) cv /
          affineVal (b0 :: rbot) cv) (1 / τ) = rationalKey (1 / τ) t0 b0 := by
        rw [hvt, hvb]
        rfl
      rw [hkey]
      exact rationalKeys_subset_blacklist
        (mem_rationalKeys
          (mem_nonzeroRange (hmem_t t0 (List.mem_cons_self _ _)) ht0pos.ne')
          (mem_nonzeroRange (hmem_b b0 (List.mem_cons_self _ _)) hb0ne))

/-- Witness for C4: the entry stored at key 33 of the table built with
R = 1, constants [1/3] and threshold 1/100 satisfies the invariants. -/
theorem lhs_hash_entry_invariants_witness :
    (33, ([0, 1], [1, 0])) ∈ (buildLHSHashTable 1 [1 / 3] (1 / 100)).s ∧
    (0 < affineVal [0, 1] [1 / 3] ∧ pyGcdReduce ([0, 1] ++ [1, 0]) = 1 ∧
      affineVal [1, 0] [1 / 3] ≠ 0 ∧
      (33 : ℤ) = fingerprintKey
        (affineVal [0, 1] [1 / 3] / affineVal [1, 0] [1 / 3]) (1 / (1 / 100)) ∧
      (33 : ℤ) ∉ rationalBlacklist 1 (1 / (1 / 100))) :=
  ⟨by decide, lhs_hash_entry_invariants 1 [1 / 3] (1 / 100) 33 [0, 1] [1, 0]
    (by decide)⟩

/-- Witness for C5: the rational-only pair ([1, 0], [1, 0]) is not stored at
key 5 (nor any other key) in the table built with R = 1, constants [1/3] and
threshold 1/100. -/
theorem rational_only_pair_not_stored_witness :
    (∀ c ∈ List.drop 1 [(1 : ℤ), 0], c = 0) ∧
    (5, ([1, 0], [1, 0])) ∉ (buildLHSHashTable 1 [1 / 3] (1 / 100)).s :=
  ⟨by decide, rational_only_pair_not_stored 1 [1 / 3] (1 / 100) 5 [1, 0] [1, 0]
    (by decide) (by decide)⟩

/-- C9: LHSHashTable.__eq__ holds exactly when the thresholds agree and the
key sets agree; the stored (top, bottom) pairs play no role. -/
theorem table_eq_iff_threshold_and_key_set (t1 t2 : LHSHashTable)
    (h1 : t1.keys.Nodup) (h2 : t2.keys.Nodup) :
    tableEq t1 t2 = true ↔
      (t1.threshold = t2.threshold ∧ ∀ k : ℤ, k ∈ t1.keys ↔ k ∈ t2.keys) := by
  unfold tableEq
  rw [Bool.and_eq_true, beq_iff_eq, beq_iff_eq]
  constructor
  · rintro ⟨hth, hs⟩
    refine ⟨hth, fun k => ?_⟩
    have hp : List.Perm t1.keys t2.keys :=
      (List.mergeSort_perm t1.keys _).symm.trans
        (hs ▸ List.mergeSort_perm t2.keys _)
    exact hp.mem_iff
  · rintro ⟨hth, hk⟩
    refine ⟨hth, ?_⟩
    have hfin : t1.keys.toFinset = t2.keys.toFinset := by
      apply Finset.ext
      intro a
      simpa [List.mem_toFinset] using hk a
    have hp : List.Perm t1.keys t2.keys :=
      List.perm_of_nodup_nodup_toFinset_eq h1 h2 hfin
    exact List.eq_of_perm_of_sorted
      ((List.mergeSort_perm t1.keys _).trans
        (hp.trans (List.mergeSort_perm t2.keys _).symm))
      (List.sorted_mergeSort' t1.keys) (List.sorted_mergeSort' t2.keys)

/-- Witness for C9: two tables with the same threshold and key set but
different stored coefficient pairs compare equal. -/
theorem table_eq_iff_threshold_and_key_set_witness :
    tableEq ⟨1 / 2, [(3, ([1], [2])), (7, ([2], [1]))]⟩
      ⟨1 / 2, [(3, ([9], [4])), (7, ([5], [6]))]⟩ = true :=
  (table_eq_iff_threshold_and_key_set _ _ (by decide) (by decide)).mpr
    ⟨rfl, fun _ => Iff.rfl⟩

theorem compress_cons {α : Type} (x : α) (xs : List α) (b : Bool) (bs : List Bool) :
    compress (x :: xs) (b :: bs) =
      if b then x :: compress xs bs else compress xs bs := by
  unfold compress
  rw [List.zip_cons_cons, List.filterMap_cons]
  cases b <;> simp

theorem createSeriesList_cons (gen : List ℤ → ℕ → List ℤ) (f1 : Bool)
    (c : List ℤ) (L : List (List ℤ)) :
    createSeriesList (c :: L) gen f1 =
      if (if f1 then ((gen c gNInitialSearchTerms).drop 1).contains 0
          else (gen c gNInitialSearchTerms).contains 0) then
        createSeriesList L gen f1
      else (c :: (createSeriesList L gen f1).1,
            gen c gNInitialSearchTerms :: (createSeriesList L gen f1).2) := by
  have hneg : (if f1 = true then !((gen c gNInitialSearchTerms).drop 1).contains 0
      else !(gen c gNInitialSearchTerms).contains 0) =
      !(if f1 = true then ((gen c gNInitialSearchTerms).drop 1).contains 0
        else (gen c gNInitialSearchTerms).contains 0) := by
    cases f1 <;> rfl
  unfold createSeriesList
  rw [List.map_cons, List.map_cons, compress_cons, compress_cons, hneg]
  cases hbad : (if f1 = true then ((gen c gNInitialSearchTerms).drop 1).contains 0
      else (gen c gNInitialSearchTerms).contains 0) <;> simp

theorem createSeriesList_zip_filterMap {β : Type} (gen : List ℤ → ℕ → List ℤ)
    (f1 : Bool) (g : List ℤ × List ℤ → Option β) :
    ∀ L : List (List ℤ),
      ((createSeriesList L gen f1).2.zip (createSeriesList L gen f1).1).filterMap g =
        L.flatMap (fun c =>
          if (if f1 then ((gen c gNInitialSearchTerms).drop 1).contains 0
              else (gen c gNInitialSearchTerms).contains 0) then []
          else (g (gen c gNInitialSearchTerms, c)).toList) := by
  intro L
  induction L with
  | nil => rfl
  | cons c L ih =>
    rw [List.flatMap_cons, createSeriesList_cons]
    cases hbad : (if f1 = true then ((gen c gNInitialSearchTerms).drop 1).contains 0
        else (gen c gNInitialSearchTerms).contains 0) with
    | true =>
      simp only [if_true, Bool.true_eq_false, if_false]
      rw [← ih]
      simp
    | false =>
      simp only [Bool.false_eq_true, if_false]
      rw [List.zip_cons_cons, List.filterMap_cons]
      cases hg : g (gen c gNInitialSearchTerms, c) with
      | none => rw [← ih]; simp [hg]
      | some y => rw [← ih]; simp [hg]

theorem enumCacheB_eq_canonical (tbl : LHSHashTable)
    (gA gB : List ℤ → ℕ → List ℤ) (A B : List (List ℤ)) :
    enumCacheB tbl gA gB A B = canonicalMatches tbl gA gB A B := by
  unfold enumCacheB canonicalMatches
  congr 1
  funext aCoef
  by_cases ha : ((gA aCoef 32).drop 1).contains 0 = true
  · rw [if_pos ha]
    have : ∀ bCoef, (if ((gA aCoef 32).drop 1).contains 0 then []
        else if (gB bCoef 32).contains 0 then []
        else if tbl.containsKey
            (efficientGcfKey (gA aCoef 32) (gB bCoef 32) keyFactorDefault)
        then [Match.mk
          (efficientGcfKey (gA aCoef 32) (gB bCoef 32) keyFactorDefault)
          aCoef bCoef]
        else []) = ([] : List Match) := fun bCoef => by rw [if_pos ha]
    rw [List.flatMap_congr (fun b _ => this b)]
    simp
  · rw [if_neg ha]
    rw [createSeriesList_zip_filterMap gB false
      (fun bnc => if tbl.containsKey
          (efficientGcfKey (gA aCoef 32) bnc.1 keyFactorDefault)
        then some (Match.mk
          (efficientGcfKey (gA aCoef 32) bnc.1 keyFactorDefault) aCoef bnc.2)
        else none) B]
    apply List.flatMap_congr
    intro bCoef _
    simp only [gNInitialSearchTerms]
    have hred : (if (false : Bool) = true
        then ((gB bCoef 32).drop 1).contains 0
        else (gB bCoef 32).contains 0) = (gB bCoef 32).contains 0 := rfl
    rw [hred, if_neg ha]
    by_cases hb : (gB bCoef 32).contains 0 = true
    · rw [if_pos hb, if_pos hb]
    · rw [if_neg hb, if_neg hb]
      by_cases hk : tbl.containsKey
          (efficientGcfKey (gA aCoef 32) (gB bCoef 32) keyFactorDefault) = true
      · rw [if_pos hk, if_pos hk]; rfl
      · rw [if_neg hk, if_neg hk]; rfl

theorem enumCacheA_eq_transposed (tbl : LHSHashTable)
    (gA gB : List ℤ → ℕ → List ℤ) (A B : List (List ℤ)) :
    enumCacheA tbl gA gB A B =
      B.flatMap (fun bCoef => A.flatMap (fun aCoef =>
        if ((gA aCoef 32).drop 1).contains 0 then []
        else if (gB bCoef 32).contains 0 then []
        else if tbl.containsKey
            (efficientGcfKey (gA aCoef 32) (gB bCoef 32) keyFactorDefault)
        then [Match.mk
          (efficientGcfKey (gA aCoef 32) (gB bCoef 32) keyFactorDefault)
          aCoef bCoef]
        else [])) := by
  unfold enumCacheA
  congr 1
  funext bCoef
  by_cases hb : (gB bCoef 32).contains 0 = true
  · rw [if_pos hb]
    have : ∀ aCoef, (if ((gA aCoef 32).drop 1).contains 0 then []
        else if (gB bCoef 32).contains 0 then []
        else if tbl.containsKey
            (efficientGcfKey (gA aCoef 32) (gB bCoef 32) keyFactorDefault)
        then [Match.mk
          (efficientGcfKey (gA aCoef 32) (gB bCoef 32) keyFactorDefault)
          aCoef bCoef]
        else []) = ([] : List Match) := by
      intro aCoef
      by_cases ha : ((gA aCoef 32).drop 1).contains 0 = true
      · rw [if_pos ha]
      · rw [if_neg ha, if_pos hb]
    rw [List.flatMap_congr (fun a _ => this a)]
    simp
  · rw [if_neg hb]
    rw [createSeriesList_zip_filterMap gA true
      (fun anc => if tbl.containsKey
          (efficientGcfKey anc.1 (gB bCoef 32) keyFactorDefault)
        then some (Match.mk
          (efficientGcfKey anc.1 (gB bCoef 32) keyFactorDefault) anc.2 bCoef)
        else none) A]
    apply List.flatMap_congr
    intro aCoef _
    simp only [gNInitialSearchTerms, if_true]
    by_cases ha : ((gA aCoef 32).drop 1).contains 0 = true
    · rw [if_pos ha, if_pos ha]
    · rw [if_neg ha, if_neg ha, if_neg hb]
      by_cases hk : tbl.containsKey
          (efficientGcfKey (gA aCoef 32) (gB bCoef 32) keyFactorDefault) = true
      · rw [if_pos hk, if_pos hk]; rfl
      · rw [if_neg hk, if_neg hk]; rfl

theorem flatMap_comm_perm {α β γ : Type} (A : List α) (B : List β)
    (f : α → β → List γ) :
    List.Perm (A.flatMap fun a => B.flatMap (f a))
      (B.flatMap fun b => A.flatMap (fun a => f a b)) := by
  rw [← Multiset.coe_eq_coe]
  simp only [← Multiset.coe_bind]
  exact Multiset.bind_bind (A : Multiset α) (B : Multiset β)

theorem enumCacheB_perm_enumCacheA (tbl : LHSHashTable)
    (gA gB : List ℤ → ℕ → List ℤ) (A B : List (List ℤ)) :
    List.Perm (enumCacheB tbl gA gB A B) (enumCacheA tbl gA gB A B) := by
  rw [enumCacheB_eq_canonical, enumCacheA_eq_transposed]
  unfold canonicalMatches
  exact flatMap_comm_perm A B _

/-- C6: for every pair of polynomial domains (and any generator functions and
hash table), the set of Matches emitted by the first enumeration does not
depend on which axis is materialized: the b-cached branch (stream a) and the
a-cached branch (stream b) emit the same matches, and the branch actually run
by __first_enumeration emits exactly those. -/
theorem first_enumeration_axis_equivalence (tbl : LHSHashTable)
    (gA gB : List ℤ → ℕ → List ℤ) (polyA polyB : List (List ℤ)) (m : Match) :
    (m ∈ firstEnumeration tbl gA gB polyA polyB ↔
      m ∈ enumCacheB tbl gA gB (listProd polyA) (listProd polyB)) ∧
    (m ∈ enumCacheB tbl gA gB (listProd polyA) (listProd polyB) ↔
      m ∈ enumCacheA tbl gA gB (listProd polyA) (listProd polyB)) := by
  have hperm := enumCacheB_perm_enumCacheA tbl gA gB (listProd polyA) (listProd polyB)
  constructor
  · unfold firstEnumeration
    split
    · exact Iff.rfl
    · exact hperm.symm.mem_iff
  · exact hperm.mem_iff

theorem refineResults_eq_filter (tbl : LHSHashTable) (constVals : List ℚ)
    (fmt : ℚ → String) (genA genB : List ℤ → ℕ → List ℤ) :
    ∀ ms : List Match, (∀ m ∈ ms, RefineOK tbl genA genB m) →
      refineResults tbl constVals fmt genA genB ms =
        some (ms.filter (refineAccept tbl constVals fmt genA genB)) := by
  intro ms
  induction ms with
  | nil => intro _; rfl
  | cons r rest ih =>
    intro h
    have hr := h r (List.mem_cons_self _ _)
    have hrest := ih (fun m hm => h m (List.mem_cons_of_mem _ hm))
    obtain ⟨h1, h2⟩ := hr
    rw [List.filter_cons]
    cases hl : tbl.lookup r.lhsKey with
    | none => rw [hl] at h1; simp at h1
    | some e =>
      obtain ⟨cTop, cBot⟩ := e
      by_cases hden : lhsProd cBot constVals = 0
      · have e1 : refineResults tbl constVals fmt genA genB (r :: rest) =
            refineResults tbl constVals fmt genA genB rest := by
          simp [refineResults, hl, hden]
        have e2 : refineAccept tbl constVals fmt genA genB r = false := by
          simp [refineAccept, hl, hden]
        rw [e1, hrest, e2]
        simp
      · cases hg : efficientGcfEvaluate (genA r.rhsAnPoly gNVerifyTerms)
            (genB r.rhsBnPoly gNVerifyTerms) with
        | none => rw [hg] at h2; simp at h2
        | some rhs =>
          by_cases hfmt : fmt (lhsProd cTop constVals / lhsProd cBot constVals) = fmt rhs
          · have e1 : refineResults tbl constVals fmt genA genB (r :: rest) =
                (refineResults tbl constVals fmt genA genB rest).map
                  (fun l => r :: l) := by
              simp [refineResults, hl, hden, hg, hfmt]
            have e2 : refineAccept tbl constVals fmt genA genB r = true := by
              simp [refineAccept, hl, hden, hg, hfmt]
            rw [e1, hrest, e2]
            simp
          · have e1 : refineResults tbl constVals fmt genA genB (r :: rest) =
                refineResults tbl constVals fmt genA genB rest := by
              simp [refineResults, hl, hden, hg, hfmt]
            have e2 : refineAccept tbl constVals fmt genA genB r = false := by
              simp [refineAccept, hl, hden, hg, hfmt]
            rw [e1, hrest, e2]
            simp

/-- C7: for any list of intermediate Matches on which __refine_results raises
no uncaught exception, the verifier returns exactly those Matches whose LHS
evaluates finitely (no zero denominator; with exact rational arithmetic the
inf/nan checks cannot fire otherwise) and whose 100-significant-digit decimal
rendering (fmt) of the LHS equals that of the 1000-term GCF convergent;
matches failing the finiteness check are skipped silently. -/
theorem refine_results_is_exact_filter (tbl : LHSHashTable)
    (constVals : List ℚ) (fmt : ℚ → String)
    (genA genB : List ℤ → ℕ → List ℤ) (ms : List Match)
    (h : ∀ m ∈ ms, RefineOK tbl genA genB m) :
    refineResults tbl constVals fmt genA genB ms =
      some (ms.filter (refineAccept tbl constVals fmt genA genB)) :=
  refineResults_eq_filter tbl constVals fmt genA genB ms h

/-- Witness for C7 on a one-element match list against a concrete table. -/
theorem refine_results_is_exact_filter_witness :
    (∀ m ∈ [Match.mk 5 [] []],
      RefineOK ⟨1 / 100, [(5, ([1], [2]))]⟩
        (fun _ _ => [1, 1]) (fun _ _ => [1]) m) ∧
    refineResults ⟨1 / 100, [(5, ([1], [2]))]⟩ [] (fun _ => "")
        (fun _ _ => [1, 1]) (fun _ _ => [1]) [Match.mk 5 [] []] =
      some ([Match.mk 5 [] []].filter
        (refineAccept ⟨1 / 100, [(5, ([1], [2]))]⟩ [] (fun _ => "")
          (fun _ _ => [1, 1]) (fun _ _ => [1]))) := by
  have hok : ∀ m ∈ [Match.mk 5 [] []],
      RefineOK ⟨1 / 100, [(5, ([1], [2]))]⟩
        (fun _ _ => [1, 1]) (fun _ _ => [1]) m := by
    intro m hm
    rw [List.mem_singleton] at hm
    subst hm
    exact ⟨by decide, by decide⟩
  exact ⟨hok, refine_results_is_exact_filter ⟨1 / 100, [(5, ([1], [2]))]⟩ []
    (fun _ => "") (fun _ _ => [1, 1]) (fun _ _ => [1]) [Match.mk 5 [] []] hok⟩

theorem mem_canonicalMatches {tbl : LHSHashTable}
    {gA gB : List ℤ → ℕ → List ℤ} {A B : List (List ℤ)} {m : Match} :
    m ∈ canonicalMatches tbl gA gB A B ↔ MatchSpec tbl gA gB A B m := by
  unfold canonicalMatches MatchSpec
  rw [List.mem_flatMap]
  constructor
  · rintro ⟨ac, hac, hm⟩
    rw [List.mem_flatMap] at hm
    rcases hm with ⟨bc, hbc, hm⟩
    split at hm
    · simp at hm
    · next ha =>
      split at hm
      · simp at hm
      · next hb =>
        split at hm
        · next hk =>
          rw [List.mem_singleton] at hm
          subst hm
          refine ⟨hac, hbc, ?_, ?_, rfl, hk⟩
          · revert ha
            cases ((gA ac 32).drop 1).contains 0 <;> simp
          · revert hb
            cases (gB bc 32).contains 0 <;> simp
        · simp at hm
  · rintro ⟨hac, hbc, ha, hb, hkey, hmem⟩
    refine ⟨m.rhsAnPoly, hac, ?_⟩
    rw [List.mem_flatMap]
    refine ⟨m.rhsBnPoly, hbc, ?_⟩
    rw [if_neg (by rw [ha]; simp), if_neg (by rw [hb]; simp), ← hkey,
      if_pos hmem, List.mem_singleton]

theorem set_getD_self : ∀ (l : List (List ℤ)) (s : ℕ), s < l.length →
    l.set s (l.getD s []) = l := by
  intro l
  induction l with
  | nil => intro s h; simp at h
  | cons x xs ih =>
    intro s h
    cases s with
    | zero => rfl
    | succ s =>
      show x :: xs.set s (xs.getD s []) = x :: xs
      exact congrArg (x :: ·) (ih s (by simpa using h))

theorem slabList_last_worker {α : Type} (xs : List α) (t : ℕ) :
    slabList xs t 1 0 = xs := by
  simp [slabList]

/-- C10 amended: multi_core_enumeration does rebind each of the first
len(splits_size) entries of poly_a to the worker's slice, but in the
single-process path of the wrapper (num_cores = 1) the sole worker index 0 is
the last worker, every slice is poly_a[s][0:], and the caller's poly_a still
holds the full search domain after the call. -/
theorem multi_core_single_process_poly_a_unchanged (polyA : List (List ℤ))
    (T : List ℕ) (hT : T.length ≤ polyA.length) :
    multiCoreSlicePolyA polyA T 1 0 = polyA := by
  unfold multiCoreSlicePolyA
  have hgen : ∀ l : List ℕ, (∀ s ∈ l, s < polyA.length) →
      l.foldl (fun pa s => pa.set s (slabList (pa.getD s []) (T.getD s 0) 1 0))
        polyA = polyA := by
    intro l
    induction l with
    | nil => intro _; rfl
    | cons s l ih =>
      intro h
      rw [List.foldl_cons, slabList_last_worker,
        set_getD_self polyA s (h s (List.mem_cons_self _ _))]
      exact ih (fun s2 hs2 => h s2 (List.mem_cons_of_mem _ hs2))
  exact hgen (List.range T.length) (fun s hs => by
    rw [List.mem_range] at hs
    omega)

/-- Witness for the amended C10 at a concrete poly_a and tile shape. -/
theorem multi_core_single_process_poly_a_unchanged_witness :
    multiCoreSlicePolyA [[0, 1], [2, 3]] [1] 1 0 = [[0, 1], [2, 3]] :=
  multi_core_single_process_poly_a_unchanged [[0, 1], [2, 3]] [1] (by decide)

/-- C10 counterexample: in the single-process path (num_cores = 1, worker
index 0), the mutated poly_a equals the original, so the caller's poly_a
still holds the full search domain, contradicting the claim. -/
theorem multi_core_poly_a_not_lost_counterexample :
    multiCoreSlicePolyA [[0, 1]] [1] 1 0 = [[0, 1]] := by decide

theorem slab_concat {α : Type} (t : ℕ) : ∀ (W : ℕ), 1 ≤ W → ∀ xs : List α,
    (List.range W).flatMap (fun i => slabList xs t W i) = xs := by
  intro W
  induction W with
  | zero => intro h; exact absurd h (by omega)
  | succ w ih =>
    intro _ xs
    rcases Nat.eq_zero_or_pos w with h0 | hw
    · subst h0
      simp [slabList, List.range_succ]
    · rw [List.range_succ_eq_map, List.flatMap_cons, List.flatMap_map]
      have h1 : slabList xs t (w + 1) 0 = xs.take t := by
        unfold slabList
        rw [if_neg (by omega)]
        simp
      have h2 : ∀ i, slabList xs t (w + 1) (Nat.succ i) =
          slabList (xs.drop t) t w i := by
        intro i
        unfold slabList
        have harg : Nat.succ i * t = i * t + t := Nat.succ_mul i t
        by_cases hi : i = w - 1
        · rw [if_pos (by omega), if_pos hi, List.drop_drop, harg]
          try rfl
          try (congr 1; omega)
        · rw [if_neg (by omega), if_neg hi, List.drop_drop, harg]
          try rfl
          try (congr 2; omega)
      rw [List.flatMap_congr (fun i _ => h2 i), ih hw (xs.drop t), h1,
        List.take_append_drop]

theorem flatMap_perm_congr {α β : Type} (l : List α) (f g : α → List β)
    (h : ∀ a ∈ l, List.Perm (f a) (g a)) :
    List.Perm (l.flatMap f) (l.flatMap g) := by
  induction l with
  | nil => exact List.Perm.refl _
  | cons a l ih =>
    rw [List.flatMap_cons, List.flatMap_cons]
    exact (h a (List.mem_cons_self _ _)).append
      (ih (fun a2 ha2 => h a2 (List.mem_cons_of_mem _ ha2)))

theorem firstEnumeration_perm_canonical (tbl : LHSHashTable)
    (gA gB : List ℤ → ℕ → List ℤ) (polyA polyB : List (List ℤ)) :
    List.Perm (firstEnumeration tbl gA gB polyA polyB)
      (canonicalMatches tbl gA gB (listProd polyA) (listProd polyB)) := by
  unfold firstEnumeration
  split
  · rw [enumCacheB_eq_canonical]
  · have h := (enumCacheB_perm_enumCacheA tbl gA gB (listProd polyA)
      (listProd polyB)).symm
    rwa [enumCacheB_eq_canonical] at h

theorem slabList_subset {α : Type} (xs : List α) (t W i : ℕ) :
    ∀ x ∈ slabList xs t W i, x ∈ xs := by
  intro x hx
  unfold slabList at hx
  split at hx
  · exact List.drop_subset _ _ hx
  · exact List.drop_subset _ _ (List.take_subset _ _ hx)

theorem canonical_union_slabs (tbl : LHSHashTable)
    (gA gB : List ℤ → ℕ → List ℤ) (xs : List ℤ) (rest polyB : List (List ℤ))
    (t W : ℕ) (hW : 1 ≤ W) :
    (List.range W).flatMap (fun i =>
      canonicalMatches tbl gA gB (listProd (slabList xs t W i :: rest))
        (listProd polyB)) =
    canonicalMatches tbl gA gB (listProd (xs :: rest)) (listProd polyB) := by
  have expand : ∀ ys : List ℤ,
      canonicalMatches tbl gA gB (listProd (ys :: rest)) (listProd polyB) =
        ys.flatMap (fun x => canonicalMatches tbl gA gB
          ((listProd rest).map (fun v => x :: v)) (listProd polyB)) := by
    intro ys
    unfold canonicalMatches
    rw [show listProd (ys :: rest) =
      ys.flatMap (fun x => (listProd rest).map (fun v => x :: v)) from rfl]
    rw [List.flatMap_assoc]
  rw [List.flatMap_congr (fun i _ => expand (slabList xs t W i)),
    ← List.flatMap_assoc, slab_concat t W hW xs, ← expand xs]

theorem mem_firstEnumeration_of_slab (tbl : LHSHashTable)
    (gA gB : List ℤ → ℕ → List ℤ) (xs : List ℤ) (rest polyB : List (List ℤ))
    (t W i : ℕ) (m : Match)
    (hm : m ∈ firstEnumeration tbl gA gB (slabList xs t W i :: rest) polyB) :
    m ∈ firstEnumeration tbl gA gB (xs :: rest) polyB := by
  have h1 := (firstEnumeration_perm_canonical tbl gA gB _ polyB).mem_iff.mp hm
  rw [mem_canonicalMatches] at h1
  apply (firstEnumeration_perm_canonical tbl gA gB _ polyB).mem_iff.mpr
  rw [mem_canonicalMatches]
  obtain ⟨hac, hrest⟩ := h1
  refine ⟨?_, hrest⟩
  rw [show listProd (slabList xs t W i :: rest) =
    (slabList xs t W i).flatMap (fun x => (listProd rest).map (fun v => x :: v))
    from rfl] at hac
  rw [show listProd (xs :: rest) =
    xs.flatMap (fun x => (listProd rest).map (fun v => x :: v)) from rfl]
  rw [List.mem_flatMap] at hac
  rw [List.mem_flatMap]
  obtain ⟨x, hx, hv⟩ := hac
  exact ⟨x, slabList_subset xs t W i x hx, hv⟩

/-- C1 amended: with a tile shape of length 1 (the wrapper's default split,
slicing only the first dimension of poly_a), the concatenation of the worker
results of multi_core_enumeration over worker indices 0..W-1 is a permutation
of the single-worker result over the whole poly_a domain: the same set of
matches with no duplicates introduced.  (With tile shapes of length at least
2 the code slices every listed dimension by the same worker index, and the
union misses the off-diagonal blocks; see the counterexample.) -/
theorem multi_core_partition_dim0_perm (tbl : LHSHashTable)
    (constVals : List ℚ) (fmt : ℚ → String)
    (gA gB : List ℤ → ℕ → List ℤ) (polyA polyB : List (List ℤ))
    (W t : ℕ) (hW : 1 ≤ W) (hA : 1 ≤ polyA.length)
    (hOK : ∀ m ∈ firstEnumeration tbl gA gB polyA polyB,
      RefineOK tbl gA gB m) :
    List.Perm
      ((List.range W).flatMap (fun i =>
        (multiCoreEnumeration tbl constVals fmt gA gB polyA polyB W [t] i).getD []))
      ((findHits tbl constVals fmt gA gB polyA polyB).getD []) := by
  obtain ⟨xs, rest, rfl⟩ : ∃ xs rest, polyA = xs :: rest := by
    cases polyA with
    | nil => simp at hA
    | cons xs rest => exact ⟨xs, rest, rfl⟩
  have hslice : ∀ i, multiCoreSlicePolyA (xs :: rest) [t] W i =
      slabList xs t W i :: rest := fun i => rfl
  have hworker : ∀ i,
      (multiCoreEnumeration tbl constVals fmt gA gB (xs :: rest) polyB W [t] i).getD [] =
        (firstEnumeration tbl gA gB (slabList xs t W i :: rest) polyB).filter
          (refineAccept tbl constVals fmt gA gB) := by
    intro i
    unfold multiCoreEnumeration findHits
    rw [hslice i, refineResults_eq_filter tbl constVals fmt gA gB _
      (fun m hm => hOK m (mem_firstEnumeration_of_slab tbl gA gB xs rest polyB t W i m hm))]
    rfl
  have hsingle : (findHits tbl constVals fmt gA gB (xs :: rest) polyB).getD [] =
      (firstEnumeration tbl gA gB (xs :: rest) polyB).filter
        (refineAccept tbl constVals fmt gA gB) := by
    unfold findHits
    rw [refineResults_eq_filter tbl constVals fmt gA gB _ hOK]
    rfl
  rw [hsingle, List.flatMap_congr (fun i _ => hworker i)]
  have hperm1 : List.Perm
      ((List.range W).flatMap (fun i =>
        (firstEnumeration tbl gA gB (slabList xs t W i :: rest) polyB).filter
          (refineAccept tbl constVals fmt gA gB)))
      ((List.range W).flatMap (fun i =>
        (canonicalMatches tbl gA gB (listProd (slabList xs t W i :: rest))
          (listProd polyB)).filter (refineAccept tbl constVals fmt gA gB))) :=
    flatMap_perm_congr _ _ _ (fun i _ =>
      (firstEnumeration_perm_canonical tbl gA gB _ polyB).filter _)
  have heq : (List.range W).flatMap (fun i =>
      (canonicalMatches tbl gA gB (listProd (slabList xs t W i :: rest))
        (listProd polyB)).filter (refineAccept tbl constVals fmt gA gB)) =
      (canonicalMatches tbl gA gB (listProd (xs :: rest))
        (listProd polyB)).filter (refineAccept tbl constVals fmt gA gB) := by
    rw [← List.filter_flatMap, canonical_union_slabs tbl gA gB xs rest polyB t W hW]
  refine hperm1.trans ?_
  rw [heq]
  exact ((firstEnumeration_perm_canonical tbl gA gB (xs :: rest) polyB).symm.filter _)

/-- C1 counterexample: with tile shape [1, 1] and two workers, the code
slices both of the first two dimensions of poly_a by the same worker index
(diagonal tiling), so a single worker over poly_a = [[1, 2], [1, 2]] finds
the match with a-coefficients [2, 1] while neither worker does (worker 0
gets the block [1] x [1], worker 1 the block [2] x [2]): the concatenated
worker results are not the single-worker match set.  The generator functions
(here: the series is the coefficient vector itself) are irrelevant to the
flaw, which is in the slicing loop. -/
theorem multi_core_partition_counterexample :
    Match.mk 30000000000 [2, 1] [1] ∈
      (findHits ⟨thresholdDefault, [(30000000000, ([1], [1]))]⟩ [] (fun _ => "x")
        (fun c _ => c) (fun c _ => c) [[1, 2], [1, 2]] [[1]]).getD [] ∧
    Match.mk 30000000000 [2, 1] [1] ∉
      (List.range 2).flatMap (fun i =>
        (multiCoreEnumeration ⟨thresholdDefault, [(30000000000, ([1], [1]))]⟩ []
          (fun _ => "x") (fun c _ => c) (fun c _ => c)
          [[1, 2], [1, 2]] [[1]] 2 [1, 1] i).getD []) := by
  constructor <;> decide

/-- Witness for the amended C1 at W = 2, t = 1, poly_a = [[1, 2]]. -/
theorem multi_core_partition_dim0_perm_witness :
    List.Perm
      ((List.range 2).flatMap (fun i =>
        (multiCoreEnumeration ⟨thresholdDefault, [(10000000000, ([1], [1]))]⟩ []
          (fun _ => "x") (fun c _ => c) (fun c _ => c)
          [[1, 2]] [[1]] 2 [1] i).getD []))
      ((findHits ⟨thresholdDefault, [(10000000000, ([1], [1]))]⟩ []
        (fun _ => "x") (fun c _ => c) (fun c _ => c) [[1, 2]] [[1]]).getD []) := by
  have hOK : ∀ m ∈ firstEnumeration ⟨thresholdDefault, [(10000000000, ([1], [1]))]⟩
      (fun c _ => c) (fun c _ => c) [[1, 2]] [[1]],
      RefineOK ⟨thresholdDefault, [(10000000000, ([1], [1]))]⟩
        (fun c _ => c) (fun c _ => c) m := by
    have hlist : firstEnumeration ⟨thresholdDefault, [(10000000000, ([1], [1]))]⟩
        (fun c _ => c) (fun c _ => c) [[1, 2]] [[1]] =
        [Match.mk 10000000000 [1] [1]] := by decide
    intro m hm
    rw [hlist, List.mem_singleton] at hm
    subst hm
    exact ⟨by decide, by decide⟩
  exact multi_core_partition_dim0_perm _ [] (fun _ => "x") _ _ [[1, 2]] [[1]] 2 1
    (by decide) (by decide) hOK

/-- Witness for the amended C3 at x = 1/3 and x = -1/3. -/
theorem fingerprint_key_is_truncation_witness :
    fingerprintKey (1 / 3 : ℚ) keyFactorDefault =
      ⌊(1 / 3 : ℚ) * keyFactorDefault⌋ ∧
    fingerprintKey (-1 / 3 : ℚ) keyFactorDefault =
      ⌈(-1 / 3 : ℚ) * keyFactorDefault⌉ :=
  ⟨(fingerprint_key_is_truncation (1 / 3)).1 (by norm_num),
   (fingerprint_key_is_truncation (-1 / 3)).2 (by norm_num)⟩

end
